import Mathlib

/-!
# Verification of treeprng (src/treeprng.py)

A shallow embedding of the `treeprng` module: the supported Python key
values, the key canonicalizer (`pickle_key_massage` / `pickle_key`), the
`TreePRNG` node state machine (`__getitem__`, `__getattr__`,
`__become_prng`, `getstate`, `setstate`, `seed`, `jumpahead`), and the
hash-chained bit generator described by the design document (which is not
part of src/treeprng.py itself; src delegates draws to `random.Random`).

Machine integers are modelled as `Int` with the 64-bit C-long range made
explicit; Python floats are modelled by their exact value (a rational for
finite doubles) together with the three non-finite values.
-/

set_option autoImplicit false

namespace TreePrng

/-- A Python float value: a finite double, modelled by its exact (rational)
value, or one of the non-finite values `inf`, `-inf`, `nan`. -/
inductive PyFloat where
  | finite (q : ℚ)
  | inf
  | neginf
  | nan
  deriving DecidableEq, Repr

/-- The supported key values of `pickle_key` (src/treeprng.py docstring:
None, bool, string, float, long, int, tuple, list, nested arbitrarily).
`int` is a Python 2 machine integer (C long), `long` is the
arbitrary-precision integer type; both are modelled as `Int`, with the
machine range made explicit where it matters.  Strings are byte lists. -/
inductive PyVal where
  | none
  | bool (b : Bool)
  | str (s : List Nat)
  | int (n : ℤ)
  | long (n : ℤ)
  | float (f : PyFloat)
  | list (xs : List PyVal)
  | tuple (xs : List PyVal)
  deriving Repr

/-- Induction principle for `PyVal` that unfolds the nested lists into
membership hypotheses. -/
theorem PyVal.induct (P : PyVal → Prop)
    (h0 : P .none) (hb : ∀ b, P (.bool b)) (hs : ∀ s, P (.str s))
    (hi : ∀ n, P (.int n)) (hl : ∀ n, P (.long n)) (hf : ∀ f, P (.float f))
    (hlist : ∀ xs, (∀ x ∈ xs, P x) → P (.list xs))
    (htup : ∀ xs, (∀ x ∈ xs, P x) → P (.tuple xs)) :
    ∀ v, P v := by
  have H : ∀ n v, sizeOf v ≤ n → P v := by
    intro n
    induction n with
    | zero =>
        intro v hv
        cases v <;> simp at hv
    | succ n ih =>
        intro v hv
        cases v with
        | none => exact h0
        | bool b => exact hb b
        | str s => exact hs s
        | int m => exact hi m
        | long m => exact hl m
        | float f => exact hf f
        | list xs =>
            refine hlist xs ?_
            intro x hx
            refine ih x ?_
            have h1 := List.sizeOf_lt_of_mem hx
            have h2 : sizeOf (PyVal.list xs) = 1 + sizeOf xs := by simp
            omega
        | tuple xs =>
            refine htup xs ?_
            intro x hx
            refine ih x ?_
            have h1 := List.sizeOf_lt_of_mem hx
            have h2 : sizeOf (PyVal.tuple xs) = 1 + sizeOf xs := by simp
            omega
  exact fun v => H (sizeOf v) v (Nat.le_refl _)

mutual

/-- Boolean structural equality on `PyVal`. -/
def PyVal.beq : PyVal → PyVal → Bool
  | .none, .none => true
  | .bool a, .bool b => a == b
  | .str a, .str b => a == b
  | .int a, .int b => a == b
  | .long a, .long b => a == b
  | .float a, .float b => a == b
  | .list xs, .list ys => PyVal.beqList xs ys
  | .tuple xs, .tuple ys => PyVal.beqList xs ys
  | _, _ => false

/-- Boolean structural equality on lists of `PyVal`. -/
def PyVal.beqList : List PyVal → List PyVal → Bool
  | [], [] => true
  | x :: xs, y :: ys => PyVal.beq x y && PyVal.beqList xs ys
  | _, _ => false

end

theorem PyVal.beq_iff : ∀ a b : PyVal, PyVal.beq a b = true ↔ a = b := by
  have main : ∀ a : PyVal,
      (∀ b, PyVal.beq a b = true ↔ a = b) ∧
      True := by
    intro a
    induction a using PyVal.induct with
    | h0 => refine ⟨fun b => ?_, trivial⟩; cases b <;> simp [PyVal.beq]
    | hb x => refine ⟨fun b => ?_, trivial⟩; cases b <;> simp [PyVal.beq]
    | hs x => refine ⟨fun b => ?_, trivial⟩; cases b <;> simp [PyVal.beq]
    | hi x => refine ⟨fun b => ?_, trivial⟩; cases b <;> simp [PyVal.beq]
    | hl x => refine ⟨fun b => ?_, trivial⟩; cases b <;> simp [PyVal.beq]
    | hf x => refine ⟨fun b => ?_, trivial⟩; cases b <;> simp [PyVal.beq]
    | hlist xs ihs =>
        refine ⟨fun b => ?_, trivial⟩
        cases b <;> simp [PyVal.beq]
        case list ys =>
          induction xs generalizing ys with
          | nil => cases ys <;> simp [PyVal.beqList]
          | cons x xs ih =>
              cases ys with
              | nil => simp [PyVal.beqList]
              | cons y ys =>
                  have hx := (ihs x (by simp)).1 y
                  have hrest := ih (fun z hz => ihs z (by simp [hz])) ys
                  simp [PyVal.beqList, hx, hrest]
    | htup xs ihs =>
        refine ⟨fun b => ?_, trivial⟩
        cases b <;> simp [PyVal.beq]
        case tuple ys =>
          induction xs generalizing ys with
          | nil => cases ys <;> simp [PyVal.beqList]
          | cons x xs ih =>
              cases ys with
              | nil => simp [PyVal.beqList]
              | cons y ys =>
                  have hx := (ihs x (by simp)).1 y
                  have hrest := ih (fun z hz => ihs z (by simp [hz])) ys
                  simp [PyVal.beqList, hx, hrest]
  exact fun a => (main a).1

instance : DecidableEq PyVal :=
  fun a b => decidable_of_iff (PyVal.beq a b = true) (PyVal.beq_iff a b)

/-- Exceptions raised by the massage step: `int(float('nan'))` raises
`ValueError`, `int(float('inf'))` raises `OverflowError`. -/
inductive MErr where
  | valueError
  | overflowError
  deriving DecidableEq, Repr

/-- Smallest Python 2 machine int (C long on a 64-bit build). -/
def intMin : ℤ := -(2 ^ 63)

/-- Largest Python 2 machine int (C long on a 64-bit build). -/
def intMax : ℤ := 2 ^ 63 - 1

/-- Whether an integer value fits the Python 2 machine `int` type. -/
def fitsInt (n : ℤ) : Prop := intMin ≤ n ∧ n ≤ intMax

instance (n : ℤ) : Decidable (fitsInt n) := by unfold fitsInt; infer_instance

/-- The result of Python 2 `int(x)` on an integer value `n`: a machine
`int` when the value fits in a C long, otherwise the same value as a
`long`. -/
def mkInt (n : ℤ) : PyVal :=
  if fitsInt n then .int n else .long n

mutual

/-- Function `pickle_key_massage` from src/treeprng.py.  An embedded float is
converted to an equal long or int if possible (`int(k)` raises
`ValueError` on nan and `OverflowError` on ±inf before the comparison
`k == int(k)` completes); an embedded long is converted to an equal int
if possible; lists and tuples are scanned left to right, and rebuilt from
the first changed element on.  The source's `y is not x` object-identity
test is modelled as structural inequality: `pickle_key_massage` returns
its argument unchanged exactly when no representation change occurs, so
the two tests select the same results. -/
def pickle_key_massage : PyVal → Except MErr PyVal
  | .none => .ok .none
  | .bool b => .ok (.bool b)
  | .str s => .ok (.str s)
  | .int n => .ok (.int n)
  | .long n => .ok (mkInt n)
  | .float (.finite q) =>
      if q.den = 1 then .ok (mkInt q.num) else .ok (.float (.finite q))
  | .float .inf => .error .overflowError
  | .float .neginf => .error .overflowError
  | .float .nan => .error .valueError
  | .list xs =>
      match massageScan xs with
      | .error e => .error e
      | .ok ys => .ok (.list ys)
  | .tuple xs =>
      match massageScan xs with
      | .error e => .error e
      | .ok ys => .ok (.tuple ys)

/-- The element loop of `pickle_key_massage`: massage elements one at a
time; while elements come back unchanged keep the originals; at the first
changed element, rebuild with that element and every later element
massaged (`massageAll`). -/
def massageScan : List PyVal → Except MErr (List PyVal)
  | [] => .ok []
  | x :: xs =>
      match pickle_key_massage x with
      | .error e => .error e
      | .ok y =>
          if y = x then
            match massageScan xs with
            | .error e => .error e
            | .ok rest => .ok (x :: rest)
          else
            match massageAll xs with
            | .error e => .error e
            | .ok rest => .ok (y :: rest)

/-- Massage every element of a list (the rebuild arm of the loop:
`[pickle_key_massage(z) for z in k[i+1:]]`). -/
def massageAll : List PyVal → Except MErr (List PyVal)
  | [] => .ok []
  | x :: xs =>
      match pickle_key_massage x with
      | .error e => .error e
      | .ok y =>
          match massageAll xs with
          | .error e => .error e
          | .ok rest => .ok (y :: rest)

end

/-! ## The pickle protocol-2 byte encoding used by `pickle_key`

`pickle_key` serializes the massaged key with `pickle.dumps(k, 2)`.
The opcode stream for the supported types is modelled below.  Two
simplifications that no claim depends on: the memo `BINPUT` opcodes that
pickle interleaves after container opcodes are omitted (they are a
deterministic function of traversal order and carry no key information),
and the eight IEEE-754 bytes of a `BINFLOAT` are replaced by an exact
encoding of the double's value (only non-integral finite floats ever
reach the encoder through `pickle_key`). -/

/-- Little-endian 2-byte encoding. -/
def le2 (n : Nat) : List Nat := [n % 256, n / 256 % 256]

/-- Little-endian 4-byte encoding. -/
def le4 (n : Nat) : List Nat :=
  [n % 256, n / 256 % 256, n / 2 ^ 16 % 256, n / 2 ^ 24 % 256]

/-- ASCII decimal digits of a natural number. -/
def decAscii (a : Nat) : List Nat :=
  if h : a < 10 then [48 + a]
  else decAscii (a / 10) ++ [48 + a % 10]
termination_by a
decreasing_by exact Nat.div_lt_self (by omega) (by decide)

/-- ASCII decimal digits of an integer, with a leading minus sign when
negative (the `repr` used by the text-mode `INT` opcode). -/
def intAscii (n : ℤ) : List Nat :=
  if n < 0 then 45 :: decAscii n.natAbs else decAscii n.natAbs

/-- The `m` little-endian bytes of `n mod 2^(8m)`. -/
def leBytesPad : Nat → Nat → List Nat
  | 0, _ => []
  | m + 1, n => n % 256 :: leBytesPad m (n / 256)

/-- Minimal number of two's-complement bytes for a positive value `a`:
the least `m ≥ 1` with `a < 2^(8m-1)` (the sign bit must stay clear). -/
def posLen (a : Nat) : Nat :=
  if a < 128 then 1 else posLen (a / 256) + 1
termination_by a
decreasing_by exact Nat.div_lt_self (by omega) (by decide)

/-- Minimal number of two's-complement bytes for a negative value `-a`:
the least `m ≥ 1` with `a ≤ 2^(8m-1)`. -/
def negLen (a : Nat) : Nat :=
  if a ≤ 128 then 1 else negLen ((a + 255) / 256) + 1
termination_by a
decreasing_by omega

/-- Minimal-length little-endian two's-complement byte encoding of an
integer, as produced by pickle's `encode_long`; the empty string for 0. -/
def long2c (n : ℤ) : List Nat :=
  if n = 0 then []
  else if 0 < n then leBytesPad (posLen n.natAbs) n.natAbs
  else leBytesPad (negLen n.natAbs) (2 ^ (8 * negLen n.natAbs) - n.natAbs)

/-- Stand-in for the 8 big-endian IEEE-754 bytes of a finite double:
an exact byte encoding of the value (numerator, a separator, then the
denominator).  No claim depends on the float byte layout; keeping the
exact value keeps distinct finite doubles distinct. -/
def floatBytes (q : ℚ) : List Nat := intAscii q.num ++ [47] ++ decAscii q.den

mutual

/-- The pickle protocol-2 opcode stream of one supported value:
`NONE`, `NEWTRUE`/`NEWFALSE`, `SHORT_BINSTRING`/`BINSTRING`,
`BININT1`/`BININT2`/`BININT`/text `INT` for machine ints,
`LONG1`/`LONG4` for longs, `BINFLOAT` for floats, `EMPTY_LIST` with
`APPEND`/`APPENDS` for lists and `EMPTY_TUPLE`/`TUPLE1..3`/`TUPLE` for
tuples. -/
def encode : PyVal → List Nat
  | .none => [78]
  | .bool true => [136]
  | .bool false => [137]
  | .str s =>
      if s.length < 256 then 85 :: s.length :: s
      else 84 :: (le4 s.length ++ s)
  | .int n =>
      if 0 ≤ n ∧ n ≤ 255 then [75, n.toNat]
      else if 0 ≤ n ∧ n ≤ 65535 then 77 :: le2 n.toNat
      else if -(2 ^ 31) ≤ n ∧ n < 2 ^ 31 then 74 :: le4 (n % 2 ^ 32).toNat
      else 73 :: (intAscii n ++ [10])
  | .long n =>
      if (long2c n).length < 256 then 138 :: (long2c n).length :: long2c n
      else 139 :: (le4 (long2c n).length ++ long2c n)
  | .float (.finite q) => 71 :: floatBytes q
  | .float .inf => [71, 127, 240, 0, 0, 0, 0, 0, 0]
  | .float .neginf => [71, 255, 240, 0, 0, 0, 0, 0, 0]
  | .float .nan => [71, 127, 248, 0, 0, 0, 0, 0, 0]
  | .list xs =>
      match xs with
      | [] => [93]
      | [x] => 93 :: (encode x ++ [97])
      | y :: z :: rest => 93 :: 40 :: (encodeList (y :: z :: rest) ++ [101])
  | .tuple xs =>
      match xs with
      | [] => [41]
      | [a] => encode a ++ [133]
      | [a, b] => encode a ++ encode b ++ [134]
      | [a, b, c] => encode a ++ encode b ++ encode c ++ [135]
      | a :: b :: c :: d :: rest =>
          40 :: (encodeList (a :: b :: c :: d :: rest) ++ [116])
termination_by v => sizeOf v
decreasing_by all_goals (simp; try omega)

/-- Concatenated encodings of the elements of a container. -/
def encodeList : List PyVal → List Nat
  | [] => []
  | x :: xs => encode x ++ encodeList xs
termination_by xs => sizeOf xs
decreasing_by all_goals (simp; try omega)

end

/-- Encoding `pickle.dumps(v, 2)`: the protocol header, the value opcodes, and the
`STOP` opcode. -/
def dumps (v : PyVal) : List Nat := 128 :: 2 :: (encode v ++ [46])

/-- Function `pickle_key` from src/treeprng.py: massage the key, then pickle it
with protocol 2.  Raises (returns `.error`) exactly when the massage
step raises. -/
def pickle_key (k : PyVal) : Except MErr (List Nat) :=
  (pickle_key_massage k).map dumps

/-! ## Python `==` on the supported values -/

/-- A Python numeric value for cross-type comparison: a finite rational
(ints, longs, bools and finite floats) or a non-finite float. -/
inductive NumV where
  | rat (q : ℚ)
  | inf
  | neginf
  | nan
  deriving DecidableEq

/-- The numeric value of a `PyVal`, when it is a number (Python treats
`bool` as a number: `True == 1`). -/
def toNum : PyVal → Option NumV
  | .bool b => some (.rat (if b then 1 else 0))
  | .int n => some (.rat (n : ℚ))
  | .long n => some (.rat (n : ℚ))
  | .float (.finite q) => some (.rat q)
  | .float .inf => some .inf
  | .float .neginf => some .neginf
  | .float .nan => some .nan
  | _ => Option.none

/-- Python `==` on numbers: exact value comparison; `nan` compares
unequal to everything, including itself. -/
def numEq : NumV → NumV → Bool
  | .rat a, .rat b => a = b
  | .inf, .inf => true
  | .neginf, .neginf => true
  | _, _ => false

mutual

/-- Python 2 `==` on the supported values: numbers compare by value
across representations, strings and containers compare structurally,
lists never equal tuples, and any remaining mixed comparison is
unequal. -/
def pyEq : PyVal → PyVal → Bool
  | .none, .none => true
  | .str s, .str t => s = t
  | .list xs, .list ys => pyEqList xs ys
  | .tuple xs, .tuple ys => pyEqList xs ys
  | a, b =>
      match toNum a, toNum b with
      | some x, some y => numEq x y
      | _, _ => false

/-- Elementwise Python `==` on sequences of equal length. -/
def pyEqList : List PyVal → List PyVal → Bool
  | [], [] => true
  | x :: xs, y :: ys => pyEq x y && pyEqList xs ys
  | _, _ => false

end

/-! ## The `TreePRNG` node state machine

A node holds `self.hash` (the hashlib context, modelled by the byte
stream it has absorbed since `hashlib.new(hashname)`; `None` once the
node has become a PRNG), `self.prng` (the attached `random.Random`
instance or `None`) and `self.is_dict`.  The hash algorithm and the
Mersenne-Twister outputs are abstracted as explicit function parameters
`digest` (for `long(self.hash.hexdigest(), 16)`) and `rnd` (the value of
the `n`-th draw from a generator seeded with a given number): no claim
depends on the concrete numbers, only on which calls succeed and how the
state changes. -/

/-- A `random.Random` instance: its seed and how many draws it has made. -/
structure PRNG where
  seed : Nat
  consumed : Nat
  deriving DecidableEq, Repr

/-- One draw from an attached generator: the value of draw number
`p.consumed` under seed `p.seed`, advancing the stream. -/
def prngDraw (rnd : Nat → Nat → Nat) (p : PRNG) : Nat × PRNG :=
  (rnd p.seed p.consumed, ⟨p.seed, p.consumed + 1⟩)

/-- A `TreePRNG` instance. -/
structure TP where
  hash : Option (List Nat)
  prng : Option PRNG
  is_dict : Bool
  deriving DecidableEq, Repr

/-- Exceptions observable at the node level.  `cantBeDict` and
`cantBePrng` are the two `assert` messages of src/treeprng.py
(the spec's `UsedAfterSpent` and `UsedAsDictAfterCommit`);
`notImplemented` is the `NotImplementedError` of the disabled methods
(the spec's `UnsupportedOperation`); `attributeError` is a failed
attribute lookup; `valueError`/`overflowError` propagate from
`pickle_key_massage`. -/
inductive PyExn where
  | cantBeDict
  | cantBePrng
  | notImplemented
  | attributeError
  | valueError
  | overflowError
  deriving DecidableEq, Repr

/-- Embed a massage exception into the node-level exceptions. -/
def mErrToExn : MErr → PyExn
  | .valueError => .valueError
  | .overflowError => .overflowError

/-- Result of a successful node operation: a child node (`__getitem__`),
a drawn number (a forwarded `random.Random` method), or the `getstate`
tuple. -/
inductive NodeRes where
  | child (s : TP)
  | num (n : Nat)
  | stTuple (h : Option (List Nat)) (p : Option PRNG) (d : Bool)
  deriving DecidableEq, Repr

/-- Attribute names routed through `__getattr__`.  `random.Random` has a
fixed method set (`random`, `choice`, `shuffle`, `getrandbits`, ...); we
model one representative method that exists and succeeds (`random`) and
one name that does not exist on `random.Random` (`sequence`, which the
module docstring advertises but no code defines), so the lookup raises
`AttributeError`. -/
inductive DrawAttr where
  | random
  | sequence
  deriving DecidableEq, Repr

/-- Method `TreePRNG.__getitem__` from src/treeprng.py.  Returns the result (or
the raised exception) together with the post-state of `self`: the method
asserts `not self.prng`, then commits `self` to the dict state, and only
then canonicalizes the key — so a key whose massage raises still leaves
`self` committed. -/
def getitem (key : PyVal) (s : TP) : Except PyExn NodeRes × TP :=
  if s.prng.isSome then (.error .cantBeDict, s)
  else
    let s1 : TP := ⟨s.hash, s.prng, true⟩
    match s.hash with
    | Option.none => (.error .attributeError, s1)
    | some h =>
        match pickle_key key with
        | .error e => (.error (mErrToExn e), s1)
        | .ok bs => (.ok (.child ⟨some (h ++ bs), Option.none, false⟩), s1)

/-- Method `TreePRNG.__getattr__` followed by the method call: if no PRNG is
attached yet, `__become_prng` asserts `not self.is_dict`, seeds a
`random.Random` from the hash digest and clears the hash; then the
attribute is looked up on the PRNG and, for an existing method, the call
draws from the stream. -/
def drawCall (digest : List Nat → Nat) (rnd : Nat → Nat → Nat)
    (a : DrawAttr) (s : TP) : Except PyExn NodeRes × TP :=
  match s.prng with
  | some p =>
      match a with
      | .random =>
          let (v, p1) := prngDraw rnd p
          (.ok (.num v), ⟨s.hash, some p1, s.is_dict⟩)
      | .sequence => (.error .attributeError, s)
  | Option.none =>
      if s.is_dict then (.error .cantBePrng, s)
      else
        match s.hash with
        | Option.none => (.error .attributeError, s)
        | some h =>
            let p : PRNG := ⟨digest h, 0⟩
            let s1 : TP := ⟨Option.none, some p, s.is_dict⟩
            match a with
            | .random =>
                let (v, p1) := prngDraw rnd p
                (.ok (.num v), ⟨Option.none, some p1, s.is_dict⟩)
            | .sequence => (.error .attributeError, s1)

/-- Method `TreePRNG.getstate` from src/treeprng.py: always succeeds, returning
`(None, prng_state, False)` for a node with an attached PRNG and
`(hash, None, is_dict)` otherwise. -/
def getstateOp (s : TP) : Except PyExn NodeRes × TP :=
  match s.prng with
  | some p => (.ok (.stTuple Option.none (some p) false), s)
  | Option.none => (.ok (.stTuple s.hash Option.none s.is_dict), s)

/-- The public operations of a node. -/
inductive NodeOp where
  | index (key : PyVal)
  | call (a : DrawAttr)
  | getstate
  | setstate
  | seed
  | jumpahead

/-- One public operation on a node: result (or exception) and the
post-state.  `setstate`, `seed` and `jumpahead` are defined on the class
and raise `NotImplementedError` unconditionally. -/
def step (digest : List Nat → Nat) (rnd : Nat → Nat → Nat) :
    NodeOp → TP → Except PyExn NodeRes × TP
  | .index key, s => getitem key s
  | .call a, s => drawCall digest rnd a s
  | .getstate, s => getstateOp s
  | .setstate, s => (.error .notImplemented, s)
  | .seed, s => (.error .notImplemented, s)
  | .jumpahead, s => (.error .notImplemented, s)

/-- Constructor `TreePRNG.__init__` with a seed: a root node in the uncommitted
state whose hash context has absorbed `pickle_key(seed)`. -/
def mkRoot (seedv : PyVal) : Except PyExn TP :=
  match pickle_key seedv with
  | .error e => .error (mErrToExn e)
  | .ok bs => .ok ⟨some bs, Option.none, false⟩

/-! ## The hash-chained bit generator

src/treeprng.py delegates draws to `random.Random`; the hash-chained bit
generator of the design document (reservoir, block counter, `extend`,
`drawBits`) is part of the repository outside src/, so it is modelled
from the spec here.  The finalized base hash context is abstracted into
the function `digest : Nat → Nat`, mapping a block counter value to the
digest obtained by extending the base context with that block's tag and
counter; `B` is the digest's bit width and every digest value is taken
modulo `2^B` when appended. -/

/-- Modelled from the spec: the mutable state of a hash-chained bit
generator — `reservoir` (the buffered not-yet-consumed bits, as a
number whose bit `i` is the `i`-th unconsumed bit), `bits`
(`reservoirBitLength`) and `counter` (`blockCounter`, starting at 1). -/
structure HRState where
  reservoir : Nat
  bits : Nat
  counter : Nat
  deriving DecidableEq, Repr

/-- Modelled from the spec: the fresh generator state created when a
node is spent. -/
def hrInit : HRState := ⟨0, 0, 1⟩

/-- Modelled from the spec: `extend()` — finalize the digest of the
current block, append its `B` bits above the reservoir's top bit, and
increment the block counter. -/
def hrExtend (digest : Nat → Nat) (B : Nat) (s : HRState) : HRState :=
  ⟨s.reservoir + digest s.counter % 2 ^ B * 2 ^ s.bits, s.bits + B, s.counter + 1⟩

/-- Modelled from the spec: the `while reservoirBitLength < k: extend()`
loop of `drawBits`. -/
def extendUntil (digest : Nat → Nat) (B : Nat) (hB : 0 < B) (k : Nat)
    (s : HRState) : HRState :=
  if s.bits < k then extendUntil digest B hB k (hrExtend digest B s) else s
termination_by k - s.bits
decreasing_by simp [hrExtend]; omega

/-- Modelled from the spec: `drawBits(k)` — fill the reservoir until at
least `k` bits are buffered, return the lowest `k` bits, shift them out
and decrease the bit length by `k`. -/
def drawBits (digest : Nat → Nat) (B : Nat) (hB : 0 < B) (k : Nat)
    (s : HRState) : Nat × HRState :=
  let t := extendUntil digest B hB k s
  (t.reservoir % 2 ^ k, ⟨t.reservoir / 2 ^ k, t.bits - k, t.counter⟩)

/-! ## Lemmas about the canonicalizer -/

/-- The element scan and the rebuild arm produce the same massaged list:
keeping an element that massaged to itself is the same as replacing it
by its massage. -/
theorem massageScan_eq_massageAll : ∀ xs, massageScan xs = massageAll xs := by
  intro xs
  induction xs with
  | nil => rfl
  | cons x xs ih =>
      rw [massageScan, massageAll]
      cases hx : pickle_key_massage x with
      | error e => rfl
      | ok y =>
          by_cases hyx : y = x
          · subst hyx
            simp [ih]
          · simp [hyx]

/-- Massaging the machine-int-or-long form of a value is the identity. -/
theorem massage_mkInt (n : ℤ) :
    pickle_key_massage (mkInt n) = .ok (mkInt n) := by
  unfold mkInt
  by_cases h : fitsInt n
  · simp [h, pickle_key_massage]
  · simp [h, pickle_key_massage, mkInt]

/-- Massaging a list of already-massaged values changes nothing. -/
theorem massageAll_idem :
    ∀ xs ys, (∀ x ∈ xs, ∀ y, pickle_key_massage x = .ok y →
        pickle_key_massage y = .ok y) →
      massageAll xs = .ok ys → massageAll ys = .ok ys := by
  intro xs
  induction xs with
  | nil =>
      intro ys _ h
      simp only [massageAll] at h
      cases h
      rfl
  | cons x xs ih =>
      intro ys hmem h
      rw [massageAll] at h
      cases hx : pickle_key_massage x with
      | error e => rw [hx] at h; cases h
      | ok y =>
          rw [hx] at h
          cases hrest : massageAll xs with
          | error e => rw [hrest] at h; cases h
          | ok rest =>
              rw [hrest] at h
              cases h
              have hy : pickle_key_massage y = .ok y :=
                hmem x (by simp) y hx
              have hr : massageAll rest = .ok rest :=
                ih rest (fun z hz => hmem z (by simp [hz])) hrest
              rw [massageAll, hy, hr]

/-- Idempotence of the massage step: a value that comes out of
`pickle_key_massage` is a fixed point of `pickle_key_massage`. -/
theorem massage_idem :
    ∀ x y, pickle_key_massage x = .ok y → pickle_key_massage y = .ok y := by
  intro x
  induction x using PyVal.induct with
  | h0 => intro y h; rw [pickle_key_massage] at h; cases h; rfl
  | hb b => intro y h; rw [pickle_key_massage] at h; cases h; rfl
  | hs s => intro y h; rw [pickle_key_massage] at h; cases h; rfl
  | hi n => intro y h; rw [pickle_key_massage] at h; cases h; rfl
  | hl n =>
      intro y h
      rw [pickle_key_massage] at h
      cases h
      exact massage_mkInt n
  | hf f =>
      intro y h
      cases f with
      | finite q =>
          rw [pickle_key_massage] at h
          by_cases hq : q.den = 1
          · rw [if_pos hq] at h
            cases h
            exact massage_mkInt q.num
          · rw [if_neg hq] at h
            cases h
            rw [pickle_key_massage, if_neg hq]
      | inf => rw [pickle_key_massage] at h; cases h
      | neginf => rw [pickle_key_massage] at h; cases h
      | nan => rw [pickle_key_massage] at h; cases h
  | hlist xs ihs =>
      intro y h
      rw [pickle_key_massage, massageScan_eq_massageAll] at h
      cases hxs : massageAll xs with
      | error e => rw [hxs] at h; cases h
      | ok ys =>
          rw [hxs] at h
          cases h
          have := massageAll_idem xs ys ihs hxs
          rw [pickle_key_massage, massageScan_eq_massageAll, this]
  | htup xs ihs =>
      intro y h
      rw [pickle_key_massage, massageScan_eq_massageAll] at h
      cases hxs : massageAll xs with
      | error e => rw [hxs] at h; cases h
      | ok ys =>
          rw [hxs] at h
          cases h
          have := massageAll_idem xs ys ihs hxs
          rw [pickle_key_massage, massageScan_eq_massageAll, this]

/-- Massaging an integer-valued finite float gives the massaged integer
form of its value. -/
theorem massage_float_int (q : ℚ) (n : ℤ) (h : q = (n : ℚ)) :
    pickle_key_massage (.float (.finite q)) = .ok (mkInt n) := by
  subst h
  rw [pickle_key_massage]
  simp [Rat.den_intCast, Rat.num_intCast]

/-- Claim C2: canonicalization identifies equal numbers — a key that is
an integer-valued float, a machine int, or an arbitrary-precision long
of the same logical value has the same canonical byte encoding; in
particular `canonicalize(3.0) == canonicalize(3)`. -/
theorem claim_C2 (q : ℚ) (n : ℤ) (h : q = (n : ℚ)) :
    pickle_key (.float (.finite q)) = pickle_key (.long n) ∧
    (fitsInt n → pickle_key (.float (.finite q)) = pickle_key (.int n)) ∧
    (fitsInt n → pickle_key (.long n) = pickle_key (.int n)) := by
  have hf : pickle_key_massage (.float (.finite q)) = .ok (mkInt n) :=
    massage_float_int q n h
  have hl : pickle_key_massage (.long n) = .ok (mkInt n) := by
    rw [pickle_key_massage]
  refine ⟨?_, ?_, ?_⟩
  · rw [pickle_key, pickle_key, hf, hl]
  · intro hfit
    rw [pickle_key, pickle_key, hf]
    simp [pickle_key_massage, mkInt, hfit]
  · intro hfit
    rw [pickle_key, pickle_key, hl]
    simp [pickle_key_massage, mkInt, hfit]

/-- Witness for C2 at the spec's concrete instance: the float `3.0` and
the machine int `3` pickle to the same bytes. -/
theorem claim_C2_witness :
    pickle_key (.float (.finite (3 : ℚ))) = pickle_key (.int 3) :=
  (claim_C2 3 3 (by decide)).2.1 (by decide)

/-- Claim C3: canonicalization is idempotent — applying the massage step
to its own output returns that output unchanged, so pickling the
massaged value a second time gives the same bytes. -/
theorem claim_C3 (x y : PyVal) (h : pickle_key_massage x = .ok y) :
    pickle_key_massage y = .ok y ∧ pickle_key y = pickle_key x := by
  have hy := massage_idem x y h
  exact ⟨hy, by rw [pickle_key, pickle_key, h, hy]⟩

/-- Witness for C3 at a concrete input. -/
theorem claim_C3_witness :
    pickle_key_massage (.int 5) = .ok (.int 5) ∧
    pickle_key (.int 5) = pickle_key (.int 5) :=
  claim_C3 (.int 5) (.int 5) (by simp [pickle_key_massage])

/-- The machine-int-or-long form of `n` compares `==`-equal to the long
`n`. -/
theorem pyEq_mkInt_long (n : ℤ) : pyEq (mkInt n) (.long n) = true := by
  unfold mkInt
  by_cases h : fitsInt n <;> simp [h, pyEq, toNum, numEq]

/-- The massaged form of an integer-valued float compares `==`-equal to
the float. -/
theorem pyEq_mkInt_float (q : ℚ) (h : q.den = 1) :
    pyEq (mkInt q.num) (.float (.finite q)) = true := by
  have hq : (q.num : ℚ) = q := (Rat.den_eq_one_iff q).mp h
  unfold mkInt
  by_cases hfit : fitsInt q.num <;> simp [hfit, pyEq, toNum, numEq, hq]

/-- Elementwise `==` between a massaged list and its original. -/
theorem massageAll_pyEqList :
    ∀ xs ys, (∀ x ∈ xs, ∀ y, pickle_key_massage x = .ok y →
        pyEq y x = true) →
      massageAll xs = .ok ys → pyEqList ys xs = true := by
  intro xs
  induction xs with
  | nil =>
      intro ys _ h
      simp only [massageAll] at h
      cases h
      rfl
  | cons x xs ih =>
      intro ys hmem h
      rw [massageAll] at h
      cases hx : pickle_key_massage x with
      | error e => rw [hx] at h; cases h
      | ok y =>
          rw [hx] at h
          cases hrest : massageAll xs with
          | error e => rw [hrest] at h; cases h
          | ok rest =>
              rw [hrest] at h
              cases h
              have hy : pyEq y x = true := hmem x (by simp) y hx
              have hr : pyEqList rest xs = true :=
                ih rest (fun z hz => hmem z (by simp [hz])) hrest
              rw [pyEqList, hy, hr]
              rfl

/-- Claim C10: key normalization preserves the logical value — whenever
the massage step is defined, its result compares Python-`==`-equal to
the original key. -/
theorem claim_C10 (x y : PyVal) (h : pickle_key_massage x = .ok y) :
    pyEq y x = true := by
  induction x using PyVal.induct generalizing y with
  | h0 => rw [pickle_key_massage] at h; cases h; rfl
  | hb b => rw [pickle_key_massage] at h; cases h; cases b <;> rfl
  | hs s => rw [pickle_key_massage] at h; cases h; simp [pyEq]
  | hi n => rw [pickle_key_massage] at h; cases h; simp [pyEq, toNum, numEq]
  | hl n => rw [pickle_key_massage] at h; cases h; exact pyEq_mkInt_long n
  | hf f =>
      cases f with
      | finite q =>
          rw [pickle_key_massage] at h
          by_cases hq : q.den = 1
          · rw [if_pos hq] at h
            cases h
            exact pyEq_mkInt_float q hq
          · rw [if_neg hq] at h
            cases h
            simp [pyEq, toNum, numEq]
      | inf => rw [pickle_key_massage] at h; cases h
      | neginf => rw [pickle_key_massage] at h; cases h
      | nan => rw [pickle_key_massage] at h; cases h
  | hlist xs ihs =>
      rw [pickle_key_massage, massageScan_eq_massageAll] at h
      cases hxs : massageAll xs with
      | error e => rw [hxs] at h; cases h
      | ok ys =>
          rw [hxs] at h
          cases h
          have := massageAll_pyEqList xs ys ihs hxs
          simp [pyEq, this]
  | htup xs ihs =>
      rw [pickle_key_massage, massageScan_eq_massageAll] at h
      cases hxs : massageAll xs with
      | error e => rw [hxs] at h; cases h
      | ok ys =>
          rw [hxs] at h
          cases h
          have := massageAll_pyEqList xs ys ihs hxs
          simp [pyEq, this]

/-- Witness for C10 at a concrete input. -/
theorem claim_C10_witness : pyEq (.int 5) (.int 5) = true :=
  claim_C10 (.int 5) (.int 5) (by simp [pickle_key_massage])

mutual

/-- Whether a key contains no non-finite float (`inf`, `-inf`, `nan`). -/
def finiteOnly : PyVal → Bool
  | .none => true
  | .bool _ => true
  | .str _ => true
  | .int _ => true
  | .long _ => true
  | .float (.finite _) => true
  | .float .inf => false
  | .float .neginf => false
  | .float .nan => false
  | .list xs => finiteOnlyList xs
  | .tuple xs => finiteOnlyList xs

/-- Whether every element of a sequence is free of non-finite floats. -/
def finiteOnlyList : List PyVal → Bool
  | [] => true
  | x :: xs => finiteOnly x && finiteOnlyList xs

end

/-- Every member of a sequence free of non-finite floats is itself free
of non-finite floats. -/
theorem finiteOnlyList_mem :
    ∀ xs, finiteOnlyList xs = true → ∀ x ∈ xs, finiteOnly x = true := by
  intro xs
  induction xs with
  | nil => intro _ x hx; cases hx
  | cons z zs ih =>
      intro h x hx
      rw [finiteOnlyList, Bool.and_eq_true] at h
      rcases List.mem_cons.mp hx with rfl | hx2
      · exact h.1
      · exact ih h.2 x hx2

/-- Lemma: `massageAll` succeeds on a list whose elements all massage
successfully. -/
theorem massageAll_total :
    ∀ xs, (∀ x ∈ xs, ∃ y, pickle_key_massage x = .ok y) →
      ∃ ys, massageAll xs = .ok ys := by
  intro xs
  induction xs with
  | nil => intro _; exact ⟨[], rfl⟩
  | cons x xs ih =>
      intro hmem
      obtain ⟨y, hy⟩ := hmem x (by simp)
      obtain ⟨ys, hys⟩ := ih (fun z hz => hmem z (by simp [hz]))
      exact ⟨y :: ys, by rw [massageAll, hy, hys]⟩

/-- The massage step succeeds on every key free of non-finite floats. -/
theorem massage_total (v : PyVal) (h : finiteOnly v = true) :
    ∃ w, pickle_key_massage v = .ok w := by
  induction v using PyVal.induct with
  | h0 => exact ⟨_, rfl⟩
  | hb b => exact ⟨_, rfl⟩
  | hs s => exact ⟨_, rfl⟩
  | hi n => exact ⟨_, rfl⟩
  | hl n => exact ⟨_, rfl⟩
  | hf f =>
      cases f with
      | finite q =>
          by_cases hq : q.den = 1
          · exact ⟨_, by rw [pickle_key_massage, if_pos hq]⟩
          · exact ⟨_, by rw [pickle_key_massage, if_neg hq]⟩
      | inf => simp [finiteOnly] at h
      | neginf => simp [finiteOnly] at h
      | nan => simp [finiteOnly] at h
  | hlist xs ihs =>
      rw [finiteOnly] at h
      obtain ⟨ys, hys⟩ := massageAll_total xs
        (fun x hx => ihs x hx (finiteOnlyList_mem xs h x hx))
      exact ⟨.list ys, by
        rw [pickle_key_massage, massageScan_eq_massageAll, hys]⟩
  | htup xs ihs =>
      rw [finiteOnly] at h
      obtain ⟨ys, hys⟩ := massageAll_total xs
        (fun x hx => ihs x hx (finiteOnlyList_mem xs h x hx))
      exact ⟨.tuple ys, by
        rw [pickle_key_massage, massageScan_eq_massageAll, hys]⟩

/-- Counterexample to claim C8 as stated: canonicalization is not total
over every float value — on `float('nan')` the massage step's
`int(k)` conversion raises `ValueError` instead of producing an
encoding. -/
theorem claim_C8_counterexample :
    pickle_key (.float .nan) = .error .valueError := by
  rw [pickle_key, pickle_key_massage]
  rfl

/-- Claim C8 (amended): the canonical encoding is total over the
supported key types — none, booleans, strings, integers of any width,
finite floats, lists and tuples, nested arbitrarily — and never raises
on them; non-finite floats (`inf`, `-inf`, `nan`) are excluded, since
the massage step raises on those. -/
theorem claim_C8 (v : PyVal) (h : finiteOnly v = true) :
    (pickle_key v).isOk = true := by
  obtain ⟨w, hw⟩ := massage_total v h
  rw [pickle_key, hw]
  rfl

/-- Witness for the amended C8 at a concrete nested input. -/
theorem claim_C8_witness :
    (pickle_key (.list [.none, .tuple [.int 1, .float (.finite (1 / 2))],
      .str [97]])).isOk = true :=
  claim_C8 _ (by simp [finiteOnly, finiteOnlyList])

/-! ## Claims about the node state machine -/

/-- Claim C1, evaluated on the code at the failing input: a draw
(`random()`) on an uncommitted node succeeds and spends it — the hash
is cleared and the generator attached — but a second draw on the spent
node also succeeds, returning the next value of the attached stream,
instead of failing with the UsedAfterSpent error the claim (and the
module's own lifecycle docstring) require. -/
theorem claim_C1 :
    drawCall (fun _ => 0) (fun _ c => c) .random
        ⟨some [], Option.none, false⟩ =
      (.ok (.num 0), ⟨Option.none, some ⟨0, 1⟩, false⟩) ∧
    drawCall (fun _ => 0) (fun _ c => c) .random
        ⟨Option.none, some ⟨0, 1⟩, false⟩ =
      (.ok (.num 1), ⟨Option.none, some ⟨0, 2⟩, false⟩) :=
  ⟨rfl, rfl⟩

/-- Claim C4: on a node that has produced a child via `index`, every
forwarded generator method — a random draw or the docstring's
detach-a-sequence call — fails with the UsedAsDictAfterCommit assertion
and leaves the node unchanged, returning no value. -/
theorem claim_C4 (digest : List Nat → Nat) (rnd : Nat → Nat → Nat)
    (key : PyVal) (s s' : TP) (c : NodeRes) (a : DrawAttr)
    (h : getitem key s = (.ok c, s')) :
    drawCall digest rnd a s' = (.error .cantBePrng, s') := by
  rw [getitem] at h
  by_cases hp : s.prng.isSome
  · rw [if_pos hp] at h
    simp at h
  · rw [if_neg hp] at h
    have hpn : s.prng = Option.none := Option.not_isSome_iff_eq_none.mp hp
    cases hh : s.hash with
    | none => rw [hh] at h; simp at h
    | some h0 =>
        rw [hh] at h
        cases hpk : pickle_key key with
        | error e => rw [hpk] at h; simp at h
        | ok bs =>
            rw [hpk] at h
            simp only [Prod.mk.injEq] at h
            obtain ⟨h1, h2⟩ := h
            subst h2
            rw [drawCall, hpn]
            rfl

/-- Witness for C4 at a concrete parent and child. -/
theorem claim_C4_witness :
    drawCall (fun _ => 0) (fun _ _ => 0) .random
        ⟨some [], Option.none, true⟩ =
      (.error .cantBePrng, ⟨some [], Option.none, true⟩) :=
  claim_C4 (fun _ => 0) (fun _ _ => 0) .none ⟨some [], Option.none, false⟩
    ⟨some [], Option.none, true⟩
    (.child ⟨some [128, 2, 78, 46], Option.none, false⟩) .random
    (by simp [getitem, pickle_key, pickle_key_massage, Except.map, dumps, encode])

/-- Counterexample to claim C5 as stated: `index` does not return a
child for every key — on a key whose canonicalization raises
(`float('nan')`), `__getitem__` raises `ValueError`, and moreover it has
already committed the parent to the dict state. -/
theorem claim_C5_counterexample :
    getitem (.float .nan) ⟨some [], Option.none, false⟩ =
      (.error .valueError, ⟨some [], Option.none, true⟩) := by
  rw [getitem]
  simp [pickle_key, pickle_key_massage, Except.map, mErrToExn]

/-- Claim C5 (amended): for every non-spent node and every key whose
canonicalization succeeds, `index` returns a fresh uncommitted child
(whose hash context extends the parent's by the canonical key bytes) and
changes nothing in the parent except its lifecycle state, which becomes
Dict on the first call and stays Dict on later calls; in particular the
parent's hash context is byte-for-byte unchanged. -/
theorem claim_C5 (key : PyVal) (s : TP) (h0 bs : List Nat)
    (hp : s.prng = Option.none) (hh : s.hash = some h0)
    (hk : pickle_key key = .ok bs) :
    getitem key s =
      (.ok (.child ⟨some (h0 ++ bs), Option.none, false⟩),
        ⟨some h0, Option.none, true⟩) := by
  rw [getitem, hp, hh, hk]
  rfl

/-- Witness for the amended C5 at a concrete node and key. -/
theorem claim_C5_witness :
    getitem .none ⟨some [], Option.none, false⟩ =
      (.ok (.child ⟨some ([] ++ [128, 2, 78, 46]), Option.none, false⟩),
        ⟨some [], Option.none, true⟩) :=
  claim_C5 .none ⟨some [], Option.none, false⟩ [] [128, 2, 78, 46] rfl rfl
    (by simp [pickle_key, pickle_key_massage, Except.map, dumps, encode])

/-- Counterexample to claim C6 as stated: an operation can fail and
still change the node — `index` with a `float('nan')` key raises
`ValueError` after having committed the uncommitted parent to the dict
state. -/
theorem claim_C6_counterexample :
    (step (fun _ => 0) (fun _ _ => 0) (.index (.float .nan))
        ⟨some [], Option.none, false⟩).1 = .error .valueError ∧
    (step (fun _ => 0) (fun _ _ => 0) (.index (.float .nan))
        ⟨some [], Option.none, false⟩).2 ≠ ⟨some [], Option.none, false⟩ := by
  constructor
  · rw [step, getitem]
    simp [pickle_key, pickle_key_massage, Except.map, mErrToExn]
  · rw [step, getitem]
    simp [pickle_key, pickle_key_massage, Except.map, mErrToExn]

/-- Claim C6 (amended): an operation that fails one of the lifecycle
assertions (`UsedAfterSpent`, `UsedAsDictAfterCommit`) or a disabled
method (`UnsupportedOperation`) leaves the node exactly as it was; only
failures occurring after the lifecycle check (key canonicalization
inside `index`, attribute lookup after the node is spent) can leave the
node transitioned. -/
theorem claim_C6 (digest : List Nat → Nat) (rnd : Nat → Nat → Nat)
    (op : NodeOp) (s : TP) (e : PyExn)
    (h : (step digest rnd op s).1 = .error e)
    (he : e = .cantBeDict ∨ e = .cantBePrng ∨ e = .notImplemented) :
    (step digest rnd op s).2 = s := by
  cases op with
  | index key =>
      rw [step] at h ⊢
      rw [getitem] at h ⊢
      by_cases hp : s.prng.isSome
      · rw [if_pos hp]
      · rw [if_neg hp] at h ⊢
        cases hh : s.hash with
        | none =>
            rw [hh] at h
            simp at h
            rcases he with rfl | rfl | rfl <;> simp at h
        | some h0 =>
            rw [hh] at h
            cases hpk : pickle_key key with
            | error e2 =>
                rw [hpk] at h
                simp at h
                cases e2 <;> rw [mErrToExn] at h <;>
                  rcases he with rfl | rfl | rfl <;> simp at h
            | ok bs => rw [hpk] at h; simp at h
  | call a =>
      rw [step] at h ⊢
      rw [drawCall] at h ⊢
      rcases hpr : s.prng with _ | p
      · by_cases hd : s.is_dict
        · simp [hd]
        · rw [if_neg hd]
          rcases hh : s.hash with _ | h0
          · rfl
          · cases a with
            | random =>
                rw [hpr, hh] at h
                simp [hd, prngDraw] at h
            | sequence =>
                rw [hpr, hh] at h
                simp [hd] at h
                rcases he with rfl | rfl | rfl <;> simp at h
      · cases a with
        | random =>
            rw [hpr] at h
            simp [prngDraw] at h
        | sequence => rfl
  | getstate =>
      rw [step] at h ⊢
      rw [getstateOp] at h ⊢
      cases s.prng <;> rfl
  | setstate => rfl
  | seed => rfl
  | jumpahead => rfl

/-- Witness for the amended C6 at a concrete failing operation. -/
theorem claim_C6_witness :
    (step (fun _ => 0) (fun _ _ => 0) .setstate
        ⟨some [], Option.none, false⟩).2 = ⟨some [], Option.none, false⟩ :=
  claim_C6 (fun _ => 0) (fun _ _ => 0) .setstate ⟨some [], Option.none, false⟩
    .notImplemented rfl (Or.inr (Or.inr rfl))

/-- Counterexample to claim C9 as stated: a direct get of raw state at
the node level does not fail — `getstate` on a fresh node succeeds and
returns the state tuple. -/
theorem claim_C9_counterexample :
    (step (fun _ => 0) (fun _ _ => 0) .getstate
        ⟨some [], Option.none, false⟩).1 =
      .ok (.stTuple (some []) Option.none false) := rfl

/-! ## Split equivalence of the bit stream -/

/-- Consuming `k` bits from the reservoir: shift them out and shorten
the bit length. -/
def hrConsume (k : Nat) (s : HRState) : HRState :=
  ⟨s.reservoir / 2 ^ k, s.bits - k, s.counter⟩

/-- One unfolding of the fill loop. -/
theorem extendUntil_eq (d : Nat → Nat) (B : Nat) (hB : 0 < B) (k : Nat)
    (s : HRState) :
    extendUntil d B hB k s =
      if s.bits < k then extendUntil d B hB k (hrExtend d B s) else s := by
  rw [extendUntil]

/-- The fill loop stops only once at least `k` bits are buffered. -/
theorem extendUntil_le_bits (d : Nat → Nat) (B : Nat) (hB : 0 < B) (k : Nat)
    (s : HRState) : k ≤ (extendUntil d B hB k s).bits := by
  induction s using extendUntil.induct d B hB k with
  | case1 s hlt ih => rw [extendUntil_eq, if_pos hlt]; exact ih
  | case2 s hge => rw [extendUntil_eq, if_neg hge]; omega

/-- Filling the reservoir appends above the existing bits: the low `j`
bits are unchanged for every `j` within the current bit length. -/
theorem extendUntil_mod (d : Nat → Nat) (B : Nat) (hB : 0 < B) (k j : Nat)
    (s : HRState) (hj : j ≤ s.bits) :
    (extendUntil d B hB k s).reservoir % 2 ^ j = s.reservoir % 2 ^ j := by
  induction s using extendUntil.induct d B hB k with
  | case1 s hlt ih =>
      rw [extendUntil_eq, if_pos hlt]
      rw [ih (by simp [hrExtend]; omega)]
      show (s.reservoir + d s.counter % 2 ^ B * 2 ^ s.bits) % 2 ^ j = _
      have hsplit : 2 ^ s.bits = 2 ^ (s.bits - j) * 2 ^ j := by
        rw [← pow_add]
        congr 1
        omega
      rw [hsplit, ← Nat.mul_assoc, Nat.add_mul_mod_self_right]
  | case2 s hge => rw [extendUntil_eq, if_neg hge]

/-- Filling up to `k` bits and then up to `m ≥ k` bits is the same as
filling up to `m` bits directly. -/
theorem extendUntil_absorb (d : Nat → Nat) (B : Nat) (hB : 0 < B)
    (m k : Nat) (s : HRState) (hkm : k ≤ m) :
    extendUntil d B hB m (extendUntil d B hB k s) = extendUntil d B hB m s := by
  induction s using extendUntil.induct d B hB k with
  | case1 s hlt ih =>
      rw [extendUntil_eq d B hB k s, if_pos hlt, ih]
      rw [extendUntil_eq d B hB m s, if_pos (by omega)]
  | case2 s hge => rw [extendUntil_eq d B hB k s, if_neg hge]

/-- Extending commutes with consuming bits that are already buffered. -/
theorem hrExtend_consume (d : Nat → Nat) (B k : Nat) (s : HRState)
    (hk : k ≤ s.bits) :
    hrExtend d B (hrConsume k s) = hrConsume k (hrExtend d B s) := by
  have hr : s.reservoir / 2 ^ k + d s.counter % 2 ^ B * 2 ^ (s.bits - k) =
      (s.reservoir + d s.counter % 2 ^ B * 2 ^ s.bits) / 2 ^ k := by
    have hsplit : 2 ^ s.bits = 2 ^ (s.bits - k) * 2 ^ k := by
      rw [← pow_add]
      congr 1
      omega
    rw [hsplit, ← Nat.mul_assoc,
      Nat.add_mul_div_right _ _ (Nat.pos_pow_of_pos k (by decide))]
  have hb : s.bits - k + B = s.bits + B - k := by omega
  simp [hrExtend, hrConsume, hr, hb]

/-- The fill loop commutes with consuming `k` already-buffered bits,
filling `k` fewer bits. -/
theorem extendUntil_consume (d : Nat → Nat) (B : Nat) (hB : 0 < B)
    (j k : Nat) (s : HRState) (hk : k ≤ s.bits) :
    extendUntil d B hB j (hrConsume k s) =
      hrConsume k (extendUntil d B hB (j + k) s) := by
  induction s using extendUntil.induct d B hB (j + k) with
  | case1 s hlt ih =>
      rw [extendUntil_eq d B hB (j + k) s, if_pos hlt]
      rw [extendUntil_eq d B hB j (hrConsume k s),
        if_pos (by simp [hrConsume]; omega)]
      rw [hrExtend_consume d B k s hk]
      exact ih (by simp [hrExtend]; omega)
  | case2 s hge =>
      rw [extendUntil_eq d B hB (j + k) s, if_neg hge]
      rw [extendUntil_eq d B hB j (hrConsume k s),
        if_neg (by simp [hrConsume]; omega)]

/-- Low bits of a number split as low bits plus shifted middle bits. -/
theorem mod_pow_split (a k1 k2 : Nat) :
    a % 2 ^ (k1 + k2) = a % 2 ^ k1 + a / 2 ^ k1 % 2 ^ k2 * 2 ^ k1 := by
  rw [pow_add]
  conv_lhs => rw [← Nat.div_add_mod (a % (2 ^ k1 * 2 ^ k2)) (2 ^ k1)]
  rw [Nat.mod_mul_right_div_self, Nat.mod_mod_of_dvd _ ⟨2 ^ k2, rfl⟩]
  ring

/-- Claim C7: split equivalence of the bit stream — for every digest
function, positive digest width, and starting state, drawing `k1` bits
and then `k2` bits, with the `k2` bits placed above the `k1` bits,
equals drawing `k1 + k2` bits in one call from the same starting
state (in particular from a freshly, identically-seeded generator). -/
theorem claim_C7 (d : Nat → Nat) (B : Nat) (hB : 0 < B) (k1 k2 : Nat)
    (s : HRState) :
    (drawBits d B hB k1 s).1 +
      (drawBits d B hB k2 (drawBits d B hB k1 s).2).1 * 2 ^ k1 =
    (drawBits d B hB (k1 + k2) s).1 := by
  simp only [drawBits]
  have hcons : (⟨(extendUntil d B hB k1 s).reservoir / 2 ^ k1,
      (extendUntil d B hB k1 s).bits - k1,
      (extendUntil d B hB k1 s).counter⟩ : HRState) =
      hrConsume k1 (extendUntil d B hB k1 s) := rfl
  rw [hcons]
  have hb1 : k1 ≤ (extendUntil d B hB k1 s).bits :=
    extendUntil_le_bits d B hB k1 s
  rw [extendUntil_consume d B hB k2 k1 (extendUntil d B hB k1 s) hb1]
  rw [extendUntil_absorb d B hB (k2 + k1) k1 s (by omega)]
  have hx : (extendUntil d B hB k1 s).reservoir % 2 ^ k1 =
      (extendUntil d B hB (k1 + k2) s).reservoir % 2 ^ k1 := by
    rw [← extendUntil_absorb d B hB (k1 + k2) k1 s (by omega)]
    rw [extendUntil_mod d B hB (k1 + k2) k1 (extendUntil d B hB k1 s) hb1]
  rw [hx, Nat.add_comm k2 k1]
  show (extendUntil d B hB (k1 + k2) s).reservoir % 2 ^ k1 +
      (extendUntil d B hB (k1 + k2) s).reservoir / 2 ^ k1 % 2 ^ k2 * 2 ^ k1 =
    (extendUntil d B hB (k1 + k2) s).reservoir % 2 ^ (k1 + k2)
  rw [mod_pow_split]

/-- Witness for C7 at a concrete digest, width and split. -/
theorem claim_C7_witness :
    (0 : Nat) < 8 ∧
    ((drawBits (fun _ => 0) 8 (by decide) 3 hrInit).1 +
      (drawBits (fun _ => 0) 8 (by decide) 5
        (drawBits (fun _ => 0) 8 (by decide) 3 hrInit).2).1 * 2 ^ 3 =
      (drawBits (fun _ => 0) 8 (by decide) (3 + 5) hrInit).1) :=
  ⟨by norm_num, claim_C7 (fun _ => 0) 8 (by decide) 3 5 hrInit⟩

/-- Claim C9 (amended): explicit reseed (`seed`), jump-ahead
(`jumpahead`) and raw state set (`setstate`) at the node level always
fail with the UnsupportedOperation error in every lifecycle state and
leave the node unchanged; `getstate`, however, succeeds. -/
theorem claim_C9 (digest : List Nat → Nat) (rnd : Nat → Nat → Nat) (s : TP) :
    step digest rnd .setstate s = (.error .notImplemented, s) ∧
    step digest rnd .seed s = (.error .notImplemented, s) ∧
    step digest rnd .jumpahead s = (.error .notImplemented, s) :=
  ⟨rfl, rfl, rfl⟩

end TreePrng
